import Mathlib

/-!
Verification development for the LocalTimeRK library (POSIX-timezone local
time conversion for embedded devices).

The repository provides the interface `src/LocalTimeRK.h`; the method bodies
for parsing, transition calculation and conversion are not part of the
visible sources, so they are modelled here from the design specification
(`spec.md`), faithful to its wording.  The inline member functions that do
appear in the header (`hasDST`, `isDST`, `isStandardTime`, the
`LocalTimeValue` accessors) are translated directly from the header.

Machine integers (`time_t`, `int`, `int8_t`) are modelled as `Int`; all the
values handled by well-formed timezone strings are far below any overflow
boundary, and the claims under study only involve such values.
-/

namespace LTRK

/-! ## Calendar primitives

Modelled from the spec: §6 declares "time decomposition primitives" that
convert an epoch-seconds value to/from a broken-down calendar structure in
UTC (`LocalTime::timeToTm` / `LocalTime::tmToTime` in the header, wrappers
around `gmtime_r` / `timegm`).  They are modelled here as the standard
proleptic-Gregorian civil-date conversion (Euclidean division throughout,
so negative instants are handled the way `gmtime` handles them). -/

/-- Number of days from the civil epoch 1970-01-01 to the given
year/month/day (month 1-12, day 1-31; linear continuation outside those
ranges, which is how `timegm` normalizes overflowing fields). -/
def daysFromCivil (y m d : Int) : Int :=
  let y' := if m ≤ 2 then y - 1 else y
  let era := y' / 400
  let yoe := y' - era * 400
  let mp := (m + 9) % 12
  let doy := (153 * mp + 2) / 5 + d - 1
  let doe := yoe * 365 + yoe / 4 - yoe / 100 + doy
  era * 146097 + doe - 719468

/-- Inverse of `daysFromCivil`: the (year, month, day) of the civil date
that is `z` days after 1970-01-01. -/
def civilFromDays (z : Int) : Int × Int × Int :=
  let z' := z + 719468
  let era := z' / 146097
  let doe := z' - era * 146097
  let yoe := (doe - doe / 1460 + doe / 36524 - doe / 146096) / 365
  let y := yoe + era * 400
  let doy := doe - (365 * yoe + yoe / 4 - yoe / 100)
  let mp := (5 * doy + 2) / 153
  let d := doy - (153 * mp + 2) / 5 + 1
  let m := if mp < 10 then mp + 3 else mp - 9
  (if m ≤ 2 then y + 1 else y, m, d)

/-- The `struct tm` broken-down time: seconds, minutes, hours, day of month,
month (0-11), years since 1900, weekday (0=Sunday), day of year (0-based). -/
structure Tm where
  tm_sec : Int := 0
  tm_min : Int := 0
  tm_hour : Int := 0
  tm_mday : Int := 0
  tm_mon : Int := 0
  tm_year : Int := 0
  tm_wday : Int := 0
  tm_yday : Int := 0
deriving DecidableEq

/-- Modelled from the spec: `LocalTime::timeToTm`, the wrapper around
`gmtime_r` — breaks a Unix time into UTC calendar components. -/
def timeToTm (t : Int) : Tm :=
  let days := t / 86400
  let rem := t % 86400
  let ymd := civilFromDays days
  { tm_sec := rem % 60
    tm_min := (rem / 60) % 60
    tm_hour := rem / 3600
    tm_mday := ymd.2.2
    tm_mon := ymd.2.1 - 1
    tm_year := ymd.1 - 1900
    tm_wday := (days + 4) % 7
    tm_yday := days - daysFromCivil ymd.1 1 1 }

/-- Modelled from the spec: `LocalTime::tmToTime`, the wrapper around
`timegm` — converts a broken-down UTC time to Unix time (ignoring
`tm_wday`/`tm_yday`, normalizing overflowing fields linearly). -/
def tmToTime (tm : Tm) : Int :=
  daysFromCivil (tm.tm_year + 1900) (tm.tm_mon + 1) tm.tm_mday * 86400
    + tm.tm_hour * 3600 + tm.tm_min * 60 + tm.tm_sec

/-- Weekday (0 = Sunday .. 6 = Saturday) of a civil date. -/
def weekdayOf (y m d : Int) : Int := (daysFromCivil y m d + 4) % 7

/-! ## `LocalTimeHMS` -/

/-- The signed hour / minute / second triple (fields are `int8_t` in the
header: hour may be negative, minute and second are 0-59 magnitudes). -/
structure LocalTimeHMS where
  hour : Int := 0
  minute : Int := 0
  second : Int := 0
deriving DecidableEq

/-- `LocalTimeHMS::toSeconds`.  Modelled from the spec: §4.1 "`hour*3600 +
minute*60 + second`, preserving the sign of `hour` (magnitude of
minute/second is added, not subtracted, even for negative hours)", matching
the header's own comment "simple multiplication and addition". -/
def LocalTimeHMS.toSeconds (h : LocalTimeHMS) : Int :=
  h.hour * 3600 + h.minute * 60 + h.second

/-- Numeric value of one decimal digit character. -/
def digitVal (c : Char) : Nat := c.toNat - 48

/-- Value of a list of decimal digit characters (most significant first). -/
def digitsVal (l : List Char) : Nat :=
  l.foldl (fun a c => a * 10 + digitVal c) 0

/-- Split a list at the longest initial run satisfying `p` (the scanning
primitive used by the parsers). -/
def spanD (p : Char → Bool) : List Char → List Char × List Char
  | [] => ([], [])
  | c :: cs =>
    if p c then
      let r := spanD p cs
      (c :: r.1, r.2)
    else ([], c :: cs)

/-- Modelled from the spec: `LocalTimeHMS::parse` accepts `"H"`, `"H:MM"`,
`"H:MM:SS"`; hour may carry a leading `-`; missing parts default to 0
(best-effort parsing, degraded components are left zero). -/
def parseHMSL (l : List Char) : LocalTimeHMS :=
  let neg : Bool := l.headD 'x' = '-'
  let l' := if neg then l.tail else l
  let p1 := spanD Char.isDigit l'
  let hourMag : Int := (digitsVal p1.1 : Int)
  let hour : Int := if neg then -hourMag else hourMag
  let mPart : Int × List Char :=
    match p1.2 with
    | ':' :: rest =>
      let p2 := spanD Char.isDigit rest
      ((digitsVal p2.1 : Int), p2.2)
    | _ => (0, p1.2)
  let second : Int :=
    match mPart.2 with
    | ':' :: rest => (digitsVal (spanD Char.isDigit rest).1 : Int)
    | _ => 0
  { hour := hour, minute := mPart.1, second := second }

/-- `LocalTimeHMS::parse` on a `String`. -/
def LocalTimeHMS.parse (s : String) : LocalTimeHMS := parseHMSL s.toList

/-- One decimal digit character. -/
def digitChar (n : Nat) : Char :=
  match n with
  | 0 => '0' | 1 => '1' | 2 => '2' | 3 => '3' | 4 => '4'
  | 5 => '5' | 6 => '6' | 7 => '7' | 8 => '8' | _ => '9'

/-- Render a value 0-99 without padding (one digit when below ten).
All numeric fields of a well-formed descriptor are in this range. -/
def natDigits2 (n : Nat) : List Char :=
  if n < 10 then [digitChar n] else [digitChar (n / 10), digitChar (n % 10)]

/-- Render a value 0-99 zero-padded to two digits. -/
def twoDig (n : Nat) : List Char := [digitChar (n / 10), digitChar (n % 10)]

/-- Modelled from the spec: `LocalTimeHMS::toString` renders the canonical
`"H:MM:SS"`, minute/second zero-padded to two digits, sign only on the
hour component. -/
def hmsChars (h : LocalTimeHMS) : List Char :=
  (if h.hour < 0 then ['-'] else [])
    ++ natDigits2 h.hour.natAbs
    ++ ':' :: twoDig h.minute.toNat
    ++ ':' :: twoDig h.second.toNat

/-- `LocalTimeHMS::toString` as a `String`. -/
def LocalTimeHMS.toString (h : LocalTimeHMS) : String := String.mk (hmsChars h)

/-! ## `LocalTimeChange` -/

/-- One DST boundary rule `M<month>.<week>.<dayOfWeek>[/<HMS>]`
(fields as in the header: month 1-12, week 1-5 with 5 = "last",
dayOfWeek 0 = Sunday, `valid` flag, local time-of-day). -/
structure LocalTimeChange where
  month : Int := 0
  week : Int := 0
  dayOfWeek : Int := 0
  valid : Bool := false
  hms : LocalTimeHMS := {}
deriving DecidableEq

/-- Modelled from the spec: `LocalTimeChange::parse` — grammar
`M<month>.<week>.<dayOfWeek>[/<HMS>]`, time-of-day defaulting to midnight;
any other leading token (or an empty string) yields `valid = false`. -/
def parseChangeL (l : List Char) : LocalTimeChange :=
  match l with
  | 'M' :: rest =>
    let p1 := spanD Char.isDigit rest
    let r1 := match p1.2 with
      | '.' :: r => r
      | _ => p1.2
    let p2 := spanD Char.isDigit r1
    let r2 := match p2.2 with
      | '.' :: r => r
      | _ => p2.2
    let p3 := spanD Char.isDigit r2
    let hms := match p3.2 with
      | '/' :: r => parseHMSL r
      | _ => {}
    { month := (digitsVal p1.1 : Int), week := (digitsVal p2.1 : Int),
      dayOfWeek := (digitsVal p3.1 : Int), valid := true, hms := hms }
  | _ => {}

/-- `LocalTimeChange::parse` on a `String`. -/
def LocalTimeChange.parse (s : String) : LocalTimeChange := parseChangeL s.toList

/-- Modelled from the spec: `LocalTimeChange::toString` renders the
normalized `"M3.2.0/2:00:00"` form. -/
def changeChars (c : LocalTimeChange) : List Char :=
  'M' :: natDigits2 c.month.toNat
    ++ '.' :: natDigits2 c.week.toNat
    ++ '.' :: natDigits2 c.dayOfWeek.toNat
    ++ '/' :: hmsChars c.hms

/-- `LocalTimeChange::toString` as a `String`. -/
def LocalTimeChange.toString (c : LocalTimeChange) : String := String.mk (changeChars c)

/-- Number of days in the given month (difference of `daysFromCivil`
of consecutive month starts, so February length follows leap years). -/
def lastDayOfMonth (y m : Int) : Int :=
  (if m = 12 then daysFromCivil (y + 1) 1 1 else daysFromCivil y (m + 1) 1)
    - daysFromCivil y m 1

/-- Walk backward from day `n` of the month to the most recent day whose
weekday is `target` (0 when no such day exists down to day 1). -/
def lastWeekdayOnOrBefore (y m target : Int) : Nat → Int
  | 0 => 0
  | n + 1 =>
    if weekdayOf y m ((n : Int) + 1) = target then (n : Int) + 1
    else lastWeekdayOnOrBefore y m target n

/-- Modelled from the spec: the day-of-month selected by
`LocalTimeChange::calculate` (§4.2): for week ≤ 4 the formula
`1 + ((dayOfWeek − weekdayOf1st + 7) mod 7) + (week−1)·7`; for week = 5
("last") walk backward from the last day of the month. -/
def calcDayOfMonth (c : LocalTimeChange) (year : Int) : Int :=
  if c.week ≤ 4 then
    1 + (c.dayOfWeek - weekdayOf year c.month 1 + 7) % 7 + (c.week - 1) * 7
  else
    lastWeekdayOnOrBefore year c.month c.dayOfWeek (lastDayOfMonth year c.month).toNat

/-- Modelled from the spec: `LocalTimeChange::calculate` — from a `tm`
carrying the target year, compose the local transition date and time-of-day
and convert local to UTC.  `tzAdjust` is the stored POSIX offset literal
(its sign is the opposite of the conventional UTC offset, §4.3), so
"subtracting the conventional UTC offset" (§4.2 step 5) is adding
`tzAdjust.toSeconds`.  Returns the UTC instant and its normalized
broken-down fields. -/
def LocalTimeChange.calculate (c : LocalTimeChange) (tmIn : Tm) (tzAdjust : LocalTimeHMS) :
    Int × Tm :=
  let year := tmIn.tm_year + 1900
  let localTm : Tm :=
    { tm_year := year - 1900, tm_mon := c.month - 1, tm_mday := calcDayOfMonth c year
      tm_hour := c.hms.hour, tm_min := c.hms.minute, tm_sec := c.hms.second }
  let utc := tmToTime localTm + tzAdjust.toSeconds
  (utc, timeToTm utc)

/-! ## `LocalTimePosixTimezone` -/

/-- The parsed POSIX timezone descriptor (names modelled as `List Char`,
the natural embedding of the `String` fields of the header). -/
structure LocalTimePosixTimezone where
  dstName : List Char := []
  dstHMS : LocalTimeHMS := {}
  standardName : List Char := []
  standardHMS : LocalTimeHMS := {}
  dstStart : LocalTimeChange := {}
  standardStart : LocalTimeChange := {}
deriving DecidableEq

/-- `LocalTimePosixTimezone::hasDST` — inline in the header:
`return dstStart.valid;`. -/
def LocalTimePosixTimezone.hasDST (t : LocalTimePosixTimezone) : Bool :=
  t.dstStart.valid

/-- A timezone-name character: anything but a digit, `,`, `+` or `-`
(spec §4.3). -/
def isNameChar (c : Char) : Bool :=
  !(c.isDigit || c = ',' || c = '+' || c = '-')

/-- A character that may appear in the body of an offset: digit or `:`. -/
def isOffsetChar (c : Char) : Bool := c.isDigit || c = ':'

/-- Take the leading run of name characters. -/
def takeName (l : List Char) : List Char × List Char := spanD isNameChar l

/-- Take the leading signed-offset text: an optional sign (`+` is dropped,
`-` is kept for the HMS parser) followed by the run of digit/colon
characters. -/
def takeOffset (l : List Char) : List Char × List Char :=
  if l.headD 'x' = '-' then
    let p := spanD isOffsetChar l.tail
    ('-' :: p.1, p.2)
  else if l.headD 'x' = '+' then spanD isOffsetChar l.tail
  else spanD isOffsetChar l

/-- Modelled from the spec: `LocalTimePosixTimezone::parse` — grammar
`<std-name><std-offset>[<dst-name>[<dst-offset>],<dst-rule>,<std-rule>]`
(§4.3).  A DST name with no explicit offset defaults the DST offset to the
standard offset minus one hour (in the stored POSIX literal, e.g. `EST5EDT`
stores 5 and 4).  When the rule pair is omitted the transition rules are
left invalid (the spec's recommended resolution of its open question); when
there is no DST name at all, `dstStart.valid` stays false. -/
def parseTzL (l : List Char) : LocalTimePosixTimezone :=
  let pn1 := takeName l
  let po1 := takeOffset pn1.2
  let standardHMS := parseHMSL po1.1
  let pn2 := takeName po1.2
  match pn2.1 with
  | [] =>
    { standardName := pn1.1, standardHMS := standardHMS }
  | c :: cs =>
    let po2 := takeOffset pn2.2
    let dstHMS :=
      match po2.1 with
      | [] => { standardHMS with hour := standardHMS.hour - 1 }
      | _ => parseHMSL po2.1
    match po2.2 with
    | ',' :: r5 =>
      let pr := spanD (fun ch => ch != ',') r5
      match pr.2 with
      | ',' :: r7 =>
        { standardName := pn1.1, standardHMS := standardHMS,
          dstName := c :: cs, dstHMS := dstHMS,
          dstStart := parseChangeL pr.1, standardStart := parseChangeL r7 }
      | _ =>
        { standardName := pn1.1, standardHMS := standardHMS,
          dstName := c :: cs, dstHMS := dstHMS }
    | _ =>
      { standardName := pn1.1, standardHMS := standardHMS,
        dstName := c :: cs, dstHMS := dstHMS }

/-- `LocalTimePosixTimezone::parse` on a `String`. -/
def LocalTimePosixTimezone.parse (s : String) : LocalTimePosixTimezone :=
  parseTzL s.toList

/-- Modelled from the spec: `LocalTimePosixTimezone::toString` regenerates
a canonical descriptor string that re-parses to an equivalent descriptor
(§4.4): standard name and offset, then — when a DST name is present — the
DST name and (always explicit) DST offset, then — when the rules are
valid — the comma-separated rule pair. -/
def tzChars (t : LocalTimePosixTimezone) : List Char :=
  t.standardName ++ hmsChars t.standardHMS ++
    (match t.dstName with
     | [] => []
     | c :: cs =>
       (c :: cs) ++ hmsChars t.dstHMS ++
         (if t.dstStart.valid then
            ',' :: changeChars t.dstStart ++ ',' :: changeChars t.standardStart
          else []))

/-- `LocalTimePosixTimezone::toString` as a `String`. -/
def LocalTimePosixTimezone.toString (t : LocalTimePosixTimezone) : String :=
  String.mk (tzChars t)

/-! ## `LocalTimeConvert` -/

/-- The classification of the target instant against the current year's
transition instants (header, `LocalTimeConvert::Position`). -/
inductive LocalTimeConvert.Position where
  | BEFORE_DST
  | IN_DST
  | AFTER_DST
  | NO_DST
deriving DecidableEq

/-- `LocalTimeValue` — the header's wrapper around `struct tm`. -/
structure LocalTimeValue where
  localTimeInfo : Tm := {}
deriving DecidableEq

/-- `LocalTimeValue::hour` (inline in the header). -/
def LocalTimeValue.hour (v : LocalTimeValue) : Int := v.localTimeInfo.tm_hour

/-- `LocalTimeValue::minute` (inline in the header). -/
def LocalTimeValue.minute (v : LocalTimeValue) : Int := v.localTimeInfo.tm_min

/-- `LocalTimeValue::second` (inline in the header). -/
def LocalTimeValue.second (v : LocalTimeValue) : Int := v.localTimeInfo.tm_sec

/-- `LocalTimeValue::day` (inline in the header). -/
def LocalTimeValue.day (v : LocalTimeValue) : Int := v.localTimeInfo.tm_mday

/-- `LocalTimeValue::weekday` (inline in the header, 1-based: Sunday = 1). -/
def LocalTimeValue.weekday (v : LocalTimeValue) : Int := v.localTimeInfo.tm_wday + 1

/-- `LocalTimeValue::month` (inline in the header, 1-based). -/
def LocalTimeValue.month (v : LocalTimeValue) : Int := v.localTimeInfo.tm_mon + 1

/-- `LocalTimeValue::year` (inline in the header, 4-digit). -/
def LocalTimeValue.year (v : LocalTimeValue) : Int := v.localTimeInfo.tm_year + 1900

/-- The state of a `LocalTimeConvert` after `convert()` (header fields). -/
structure LocalTimeConvert where
  position : LocalTimeConvert.Position := .NO_DST
  config : LocalTimePosixTimezone := {}
  time : Int := 0
  localTimeValue : LocalTimeValue := {}
  dstStart : Int := 0
  dstStartTimeInfo : Tm := {}
  standardStart : Int := 0
  standardStartTimeInfo : Tm := {}
deriving DecidableEq

/-- `LocalTimeConvert::isDST` — inline in the header:
`return position == Position::IN_DST;`. -/
def LocalTimeConvert.isDST (c : LocalTimeConvert) : Bool :=
  match c.position with
  | .IN_DST => true
  | _ => false

/-- `LocalTimeConvert::isStandardTime` — inline in the header:
`return !isDST();`. -/
def LocalTimeConvert.isStandardTime (c : LocalTimeConvert) : Bool :=
  !c.isDST

/-- Modelled from the spec: `LocalTimeConvert::convert` (§4.4).  With DST,
the year of the target instant is used to compute `dstStart` with the
standard offset and `standardStart` with the DST offset; the instant is
classified with `>=` at each transition start (`BEFORE_DST` / `IN_DST` /
`AFTER_DST`); the local fields apply the season's offset (local = UTC minus
the stored POSIX literal, whose sign is the opposite of the conventional
offset).  Without DST the position is `NO_DST` and the standard offset
applies. -/
def LocalTimeConvert.convert (config : LocalTimePosixTimezone) (time : Int) :
    LocalTimeConvert :=
  if config.hasDST then
    let tmNow := timeToTm time
    let ds := config.dstStart.calculate tmNow config.standardHMS
    let ss := config.standardStart.calculate tmNow config.dstHMS
    let position : LocalTimeConvert.Position :=
      if time < ds.1 then .BEFORE_DST
      else if time < ss.1 then .IN_DST
      else .AFTER_DST
    let offs := if position = .IN_DST then config.dstHMS else config.standardHMS
    { position := position, config := config, time := time,
      localTimeValue := ⟨timeToTm (time - offs.toSeconds)⟩,
      dstStart := ds.1, dstStartTimeInfo := ds.2,
      standardStart := ss.1, standardStartTimeInfo := ss.2 }
  else
    { position := .NO_DST, config := config, time := time,
      localTimeValue := ⟨timeToTm (time - config.standardHMS.toSeconds)⟩ }

/-! ## Well-formedness and string validity -/

/-- The HMS field ranges under which the canonical rendering re-parses
exactly (at most two digits per component, non-negative minute/second). -/
def HmsWF (h : LocalTimeHMS) : Prop :=
  -99 ≤ h.hour ∧ h.hour ≤ 99 ∧ 0 ≤ h.minute ∧ h.minute ≤ 99 ∧
    0 ≤ h.second ∧ h.second ≤ 99

instance (h : LocalTimeHMS) : Decidable (HmsWF h) := by
  unfold HmsWF; infer_instance

/-- The transition-rule field ranges under which the canonical rendering
re-parses exactly. -/
def ChangeWF (c : LocalTimeChange) : Prop :=
  c.valid = true ∧ 0 ≤ c.month ∧ c.month ≤ 99 ∧ 0 ≤ c.week ∧ c.week ≤ 99 ∧
    0 ≤ c.dayOfWeek ∧ c.dayOfWeek ≤ 99 ∧ HmsWF c.hms

instance (c : LocalTimeChange) : Decidable (ChangeWF c) := by
  unfold ChangeWF; infer_instance

/-- Well-formedness of a parsed descriptor: name fields hold name
characters, the DST name does not begin with an offset character, offsets
are in canonical range, and the rule pair is consistent (both valid and in
range, or both left at their cleared defaults).  `parse` establishes every
structural clause on any input; the range clauses hold exactly when the
numerals of the input are in range. -/
def TzWF (d : LocalTimePosixTimezone) : Prop :=
  d.standardName.all isNameChar = true ∧ HmsWF d.standardHMS ∧
    ((d.dstName = [] ∧ d.dstHMS = {} ∧ d.dstStart = {} ∧ d.standardStart = {}) ∨
      (d.dstName ≠ [] ∧ d.dstName.all isNameChar = true ∧
        isOffsetChar (d.dstName.headD 'A') = false ∧ HmsWF d.dstHMS ∧
        ((ChangeWF d.dstStart ∧ ChangeWF d.standardStart) ∨
          (d.dstStart = {} ∧ d.standardStart = {}))))

instance (d : LocalTimePosixTimezone) : Decidable (TzWF d) := by
  unfold TzWF; infer_instance

/-- Modelled from the spec: a syntactically valid timezone descriptor
string is one whose parse is a well-formed descriptor — the grammar shape
is guaranteed by the parser's character classes, and the numeric fields of
a grammar-conforming string are in the canonical ranges. -/
def ValidTzString (s : String) : Prop := TzWF (parseTzL s.toList)

instance (s : String) : Decidable (ValidTzString s) := by
  unfold ValidTzString; infer_instance

/-! ## Lemmas: digits and scanning -/

theorem digitChar_isDigit (n : Nat) : (digitChar n).isDigit = true := by
  unfold digitChar
  split <;> decide

theorem digitVal_digitChar {n : Nat} (h : n ≤ 9) : digitVal (digitChar n) = n := by
  interval_cases n <;> decide

theorem isDigit_ne {c : Char} (h : c.isDigit = true) :
    c ≠ ',' ∧ c ≠ '-' ∧ c ≠ '+' ∧ c ≠ ':' ∧ c ≠ '.' ∧ c ≠ '/' := by
  refine ⟨?_, ?_, ?_, ?_, ?_, ?_⟩ <;> (intro hc; subst hc; exact absurd h (by decide))

theorem digitsVal_one (a : Char) : digitsVal [a] = digitVal a := by
  simp [digitsVal, List.foldl]

theorem digitsVal_two (a b : Char) : digitsVal [a, b] = 10 * digitVal a + digitVal b := by
  simp [digitsVal, List.foldl]
  omega

theorem digitsVal_natDigits2 {n : Nat} (h : n ≤ 99) : digitsVal (natDigits2 n) = n := by
  unfold natDigits2
  by_cases h10 : n < 10
  · rw [if_pos h10, digitsVal_one, digitVal_digitChar (by omega)]
  · rw [if_neg h10, digitsVal_two, digitVal_digitChar (by omega), digitVal_digitChar (by omega)]
    omega

theorem digitsVal_twoDig {n : Nat} (h : n ≤ 99) : digitsVal (twoDig n) = n := by
  unfold twoDig
  rw [digitsVal_two, digitVal_digitChar (by omega), digitVal_digitChar (by omega)]
  omega

theorem mem_natDigits2 {c : Char} {n : Nat} (h : c ∈ natDigits2 n) : c.isDigit = true := by
  unfold natDigits2 at h
  by_cases h10 : n < 10
  · rw [if_pos h10] at h
    simp at h
    subst h
    exact digitChar_isDigit _
  · rw [if_neg h10] at h
    simp at h
    rcases h with h | h <;> (subst h; exact digitChar_isDigit _)

theorem mem_twoDig {c : Char} {n : Nat} (h : c ∈ twoDig n) : c.isDigit = true := by
  unfold twoDig at h
  simp at h
  rcases h with h | h <;> (subst h; exact digitChar_isDigit _)

theorem natDigits2_ne_nil (n : Nat) : natDigits2 n ≠ [] := by
  unfold natDigits2
  by_cases h10 : n < 10 <;> simp [h10]

theorem spanD_append {p : Char → Bool} {l₁ l₂ : List Char}
    (h₁ : ∀ c ∈ l₁, p c = true)
    (h₂ : ∀ c, l₂.head? = some c → p c = false) :
    spanD p (l₁ ++ l₂) = (l₁, l₂) := by
  induction l₁ with
  | nil =>
    cases l₂ with
    | nil => rfl
    | cons c cs => simp [spanD, h₂ c rfl]
  | cons a t ih =>
    have ha : p a = true := h₁ a (by simp)
    have ht : ∀ c ∈ t, p c = true := fun c hc => h₁ c (by simp [hc])
    simp [spanD, ha, ih ht]

/-! ## Lemmas: HMS rendering -/

theorem mem_hmsChars {c : Char} {h : LocalTimeHMS} (hm : c ∈ hmsChars h) :
    c = '-' ∨ c = ':' ∨ c.isDigit = true := by
  unfold hmsChars at hm
  rcases List.mem_append.1 hm with h1 | h1
  · rcases List.mem_append.1 h1 with h2 | h2
    · rcases List.mem_append.1 h2 with h3 | h3
      · by_cases hs : h.hour < 0 <;> simp [hs] at h3
        left; exact h3
      · right; right; exact mem_natDigits2 h3
    · rcases List.mem_cons.1 h2 with h3 | h3
      · right; left; exact h3
      · right; right; exact mem_twoDig h3
  · rcases List.mem_cons.1 h1 with h2 | h2
    · right; left; exact h2
    · right; right; exact mem_twoDig h2

theorem hmsChars_head_cases (h : LocalTimeHMS) :
    ∃ c cs, hmsChars h = c :: cs ∧ (c = '-' ∨ c.isDigit = true) := by
  by_cases hs : h.hour < 0
  · exact ⟨'-', natDigits2 h.hour.natAbs ++ ':' :: twoDig h.minute.toNat
        ++ ':' :: twoDig h.second.toNat, by simp [hmsChars, hs], Or.inl rfl⟩
  · rcases hn : natDigits2 h.hour.natAbs with _ | ⟨c, cs⟩
    · exact absurd hn (natDigits2_ne_nil _)
    · refine ⟨c, cs ++ ':' :: twoDig h.minute.toNat ++ ':' :: twoDig h.second.toNat,
        by simp [hmsChars, hs, hn], Or.inr ?_⟩
      exact mem_natDigits2 (by rw [hn]; simp)

theorem isOffsetChar_of_mem_hmsChars {c : Char} {h : LocalTimeHMS}
    (hm : c ∈ hmsChars h) (hne : c ≠ '-') : isOffsetChar c = true := by
  rcases mem_hmsChars hm with hc | hc | hc
  · exact absurd hc hne
  · subst hc; decide
  · simp [isOffsetChar, hc]

theorem hmsChars_ne_nil (h : LocalTimeHMS) : hmsChars h ≠ [] := by
  obtain ⟨c, cs, hc, -⟩ := hmsChars_head_cases h
  simp [hc]

theorem parseHMSL_shape_neg (N M S : List Char)
    (hN : ∀ c ∈ N, c.isDigit = true) (hM : ∀ c ∈ M, c.isDigit = true)
    (hS : ∀ c ∈ S, c.isDigit = true) :
    parseHMSL ('-' :: (N ++ ':' :: (M ++ ':' :: S))) =
      ⟨-(digitsVal N : Int), (digitsVal M : Int), (digitsVal S : Int)⟩ := by
  have hsp : spanD Char.isDigit (N ++ ':' :: (M ++ ':' :: S)) = (N, ':' :: (M ++ ':' :: S)) :=
    spanD_append hN (fun c hc => by simp at hc; subst hc; decide)
  have hsp2 : spanD Char.isDigit (M ++ ':' :: S) = (M, ':' :: S) :=
    spanD_append hM (fun c hc => by simp at hc; subst hc; decide)
  have hsp3 : spanD Char.isDigit S = (S, []) := by
    have h0 : spanD Char.isDigit (S ++ ([] : List Char)) = (S, []) :=
      spanD_append hS (fun c hc => by simp at hc)
    simpa using h0
  unfold parseHMSL
  simp only [List.headD_cons, List.tail_cons]
  norm_num [hsp, hsp2, hsp3]

theorem parseHMSL_shape_pos (c0 : Char) (cs0 N M S : List Char) (hn : N = c0 :: cs0)
    (hN : ∀ c ∈ N, c.isDigit = true) (hM : ∀ c ∈ M, c.isDigit = true)
    (hS : ∀ c ∈ S, c.isDigit = true) :
    parseHMSL (N ++ ':' :: (M ++ ':' :: S)) =
      ⟨(digitsVal N : Int), (digitsVal M : Int), (digitsVal S : Int)⟩ := by
  have hsp : spanD Char.isDigit (N ++ ':' :: (M ++ ':' :: S)) = (N, ':' :: (M ++ ':' :: S)) :=
    spanD_append hN (fun c hc => by simp at hc; subst hc; decide)
  have hsp2 : spanD Char.isDigit (M ++ ':' :: S) = (M, ':' :: S) :=
    spanD_append hM (fun c hc => by simp at hc; subst hc; decide)
  have hsp3 : spanD Char.isDigit S = (S, []) := by
    have h0 : spanD Char.isDigit (S ++ ([] : List Char)) = (S, []) :=
      spanD_append hS (fun c hc => by simp at hc)
    simpa using h0
  have hc0 : c0.isDigit = true := hN c0 (by rw [hn]; simp)
  have hne : c0 ≠ '-' := (isDigit_ne hc0).2.1
  unfold parseHMSL
  rw [hn]
  simp only [List.cons_append, List.headD_cons]
  rw [show ((c0 = '-') : Bool) = false by simp [hne]]
  simp only [Bool.false_eq_true, if_false, ← List.cons_append, ← hn]
  norm_num [hsp, hsp2, hsp3]

/-- The canonical HMS rendering re-parses to the same value. -/
theorem parseHMSL_hmsChars {h : LocalTimeHMS} (hw : HmsWF h) :
    parseHMSL (hmsChars h) = h := by
  obtain ⟨h1, h2, h3, h4, h5, h6⟩ := hw
  have hmin : digitsVal (twoDig h.minute.toNat) = h.minute.toNat :=
    digitsVal_twoDig (by omega)
  have hsec : digitsVal (twoDig h.second.toNat) = h.second.toNat :=
    digitsVal_twoDig (by omega)
  have hmag : digitsVal (natDigits2 h.hour.natAbs) = h.hour.natAbs :=
    digitsVal_natDigits2 (by omega)
  by_cases hs : h.hour < 0
  · have hren : hmsChars h =
        '-' :: (natDigits2 h.hour.natAbs
          ++ ':' :: (twoDig h.minute.toNat ++ ':' :: twoDig h.second.toNat)) := by
      simp [hmsChars, hs]
    rw [hren, parseHMSL_shape_neg _ _ _ (fun c hc => mem_natDigits2 hc)
      (fun c hc => mem_twoDig hc) (fun c hc => mem_twoDig hc)]
    rw [hmag, hmin, hsec]
    cases h with
    | mk hour minute second =>
      simp only [LocalTimeHMS.mk.injEq]
      simp only at hs h3 h5 ⊢
      refine ⟨by omega, by omega, by omega⟩
  · obtain ⟨p, hn⟩ : ∃ p : Char × List Char, natDigits2 h.hour.natAbs = p.1 :: p.2 := by
      rcases hh : natDigits2 h.hour.natAbs with _ | ⟨c, cs⟩
      · exact absurd hh (natDigits2_ne_nil _)
      · exact ⟨(c, cs), rfl⟩
    have hren : hmsChars h =
        natDigits2 h.hour.natAbs
          ++ ':' :: (twoDig h.minute.toNat ++ ':' :: twoDig h.second.toNat) := by
      simp [hmsChars, hs]
    rw [hren, parseHMSL_shape_pos _ _ _ _ _ hn
      (fun c hc => mem_natDigits2 hc) (fun c hc => mem_twoDig hc) (fun c hc => mem_twoDig hc)]
    rw [hmag, hmin, hsec]
    cases h with
    | mk hour minute second =>
      simp only [LocalTimeHMS.mk.injEq]
      simp only at hs h3 h5 ⊢
      refine ⟨by omega, by omega, by omega⟩

/-! ## Lemmas: rule and descriptor rendering -/

theorem isOffsetChar_of_isDigit {c : Char} (h : c.isDigit = true) :
    isOffsetChar c = true := by
  simp [isOffsetChar, h]

theorem isNameChar_false_of_isDigit {c : Char} (h : c.isDigit = true) :
    isNameChar c = false := by
  simp [isNameChar, h]

theorem mem_hmsBody {ch : Char} {h : LocalTimeHMS}
    (hm : ch ∈ natDigits2 h.hour.natAbs ++ ':' :: twoDig h.minute.toNat
      ++ ':' :: twoDig h.second.toNat) : isOffsetChar ch = true := by
  rcases List.mem_append.1 hm with h1 | h1
  · rcases List.mem_append.1 h1 with h2 | h2
    · exact isOffsetChar_of_isDigit (mem_natDigits2 h2)
    · rcases List.mem_cons.1 h2 with h3 | h3
      · subst h3; decide
      · exact isOffsetChar_of_isDigit (mem_twoDig h3)
  · rcases List.mem_cons.1 h1 with h2 | h2
    · subst h2; decide
    · exact isOffsetChar_of_isDigit (mem_twoDig h2)

theorem takeOffset_hmsChars (h : LocalTimeHMS) (r : List Char)
    (hr : ∀ ch, r.head? = some ch → isOffsetChar ch = false) :
    takeOffset (hmsChars h ++ r) = (hmsChars h, r) := by
  have hbody : spanD isOffsetChar
      ((natDigits2 h.hour.natAbs ++ ':' :: twoDig h.minute.toNat
        ++ ':' :: twoDig h.second.toNat) ++ r)
      = (natDigits2 h.hour.natAbs ++ ':' :: twoDig h.minute.toNat
        ++ ':' :: twoDig h.second.toNat, r) :=
    spanD_append (fun c hc => mem_hmsBody hc) hr
  by_cases hs : h.hour < 0
  · have hren : hmsChars h = '-' :: (natDigits2 h.hour.natAbs
        ++ ':' :: twoDig h.minute.toNat ++ ':' :: twoDig h.second.toNat) := by
      simp [hmsChars, hs]
    rw [hren]
    unfold takeOffset
    simp only [List.cons_append, List.headD_cons, List.tail_cons]
    rw [if_pos trivial]
    simp only [List.append_assoc, List.cons_append] at hbody ⊢
    simp [hbody]
  · obtain ⟨p, hn⟩ : ∃ p : Char × List Char, natDigits2 h.hour.natAbs = p.1 :: p.2 := by
      rcases hh : natDigits2 h.hour.natAbs with _ | ⟨c, cs⟩
      · exact absurd hh (natDigits2_ne_nil _)
      · exact ⟨(c, cs), rfl⟩
    have hc0 : (p.1).isDigit = true := mem_natDigits2 (by rw [hn]; simp)
    have hren : hmsChars h = p.1 :: (p.2
        ++ ':' :: twoDig h.minute.toNat ++ ':' :: twoDig h.second.toNat) := by
      simp only [hmsChars, hs, if_false, List.nil_append, hn]
      simp [List.append_assoc]
    have hne1 : p.1 ≠ '-' := (isDigit_ne hc0).2.1
    have hne2 : p.1 ≠ '+' := (isDigit_ne hc0).2.2.1
    rw [hren]
    unfold takeOffset
    simp only [List.cons_append, List.headD_cons]
    rw [if_neg hne1, if_neg hne2]
    rw [hn] at hbody
    simp only [List.append_assoc, List.cons_append] at hbody ⊢
    simp [hbody]

theorem mem_changeChars {ch : Char} {c : LocalTimeChange} (hm : ch ∈ changeChars c) :
    ch = 'M' ∨ ch = '.' ∨ ch = '/' ∨ ch = '-' ∨ ch = ':' ∨ ch.isDigit = true := by
  unfold changeChars at hm
  rcases List.mem_cons.1 hm with h1 | h1
  · left; exact h1
  · rcases List.mem_append.1 h1 with h2 | h2
    · rcases List.mem_append.1 h2 with h3 | h3
      · rcases List.mem_append.1 h3 with h4 | h4
        · right; right; right; right; right; exact mem_natDigits2 h4
        · rcases List.mem_cons.1 h4 with h5 | h5
          · right; left; exact h5
          · right; right; right; right; right; exact mem_natDigits2 h5
      · rcases List.mem_cons.1 h3 with h4 | h4
        · right; left; exact h4
        · right; right; right; right; right; exact mem_natDigits2 h4
    · rcases List.mem_cons.1 h2 with h3 | h3
      · right; right; left; exact h3
      · rcases mem_hmsChars h3 with h4 | h4 | h4
        · right; right; right; left; exact h4
        · right; right; right; right; left; exact h4
        · right; right; right; right; right; exact h4

theorem changeChars_ne_comma {ch : Char} {c : LocalTimeChange} (hm : ch ∈ changeChars c) :
    (ch != ',') = true := by
  rcases mem_changeChars hm with h | h | h | h | h | h <;>
    first
      | (subst h; decide)
      | (simp [bne]
         intro hc
         subst hc
         exact absurd h (by decide))

/-- The canonical rule rendering re-parses to the same rule. -/
theorem parseChangeL_changeChars {c : LocalTimeChange} (hc : ChangeWF c) :
    parseChangeL (changeChars c) = c := by
  obtain ⟨hv, h1, h2, h3, h4, h5, h6, hw⟩ := hc
  have hsp1 : spanD Char.isDigit (natDigits2 c.month.toNat
      ++ '.' :: (natDigits2 c.week.toNat
        ++ '.' :: (natDigits2 c.dayOfWeek.toNat ++ '/' :: hmsChars c.hms)))
      = (natDigits2 c.month.toNat, '.' :: (natDigits2 c.week.toNat
        ++ '.' :: (natDigits2 c.dayOfWeek.toNat ++ '/' :: hmsChars c.hms))) :=
    spanD_append (fun x hx => mem_natDigits2 hx)
      (fun x hx => by simp at hx; subst hx; decide)
  have hsp2 : spanD Char.isDigit (natDigits2 c.week.toNat
      ++ '.' :: (natDigits2 c.dayOfWeek.toNat ++ '/' :: hmsChars c.hms))
      = (natDigits2 c.week.toNat,
        '.' :: (natDigits2 c.dayOfWeek.toNat ++ '/' :: hmsChars c.hms)) :=
    spanD_append (fun x hx => mem_natDigits2 hx)
      (fun x hx => by simp at hx; subst hx; decide)
  have hsp3 : spanD Char.isDigit (natDigits2 c.dayOfWeek.toNat ++ '/' :: hmsChars c.hms)
      = (natDigits2 c.dayOfWeek.toNat, '/' :: hmsChars c.hms) :=
    spanD_append (fun x hx => mem_natDigits2 hx)
      (fun x hx => by simp at hx; subst hx; decide)
  have hren : changeChars c = 'M' :: (natDigits2 c.month.toNat
      ++ '.' :: (natDigits2 c.week.toNat
        ++ '.' :: (natDigits2 c.dayOfWeek.toNat ++ '/' :: hmsChars c.hms))) := by
    simp [changeChars, List.append_assoc]
  rw [hren]
  unfold parseChangeL
  simp only [hsp1, hsp2, hsp3, parseHMSL_hmsChars hw]
  rw [digitsVal_natDigits2 (by omega), digitsVal_natDigits2 (by omega),
    digitsVal_natDigits2 (by omega)]
  cases c with
  | mk month week dayOfWeek valid hms =>
    simp only [LocalTimeChange.mk.injEq]
    simp only at hv h1 h3 h5 ⊢
    refine ⟨by omega, by omega, by omega, hv.symm, trivial⟩

theorem isNameChar_false_of_head {c : Char} (h : c = '-' ∨ c.isDigit = true) :
    isNameChar c = false := by
  rcases h with h | h
  · subst h; decide
  · exact isNameChar_false_of_isDigit h

theorem takeName_append {n r : List Char} (hn : ∀ c ∈ n, isNameChar c = true)
    (hr : ∀ c, r.head? = some c → isNameChar c = false) :
    takeName (n ++ r) = (n, r) := spanD_append hn hr

/-- The canonical descriptor rendering re-parses to the same descriptor. -/
theorem parseTzL_tzChars {d : LocalTimePosixTimezone} (hd : TzWF d) :
    parseTzL (tzChars d) = d := by
  obtain ⟨hstd, hstdHMS, hrest⟩ := hd
  have hstd' : ∀ c ∈ d.standardName, isNameChar c = true := by simpa using hstd
  obtain ⟨c0, cs0, hc0eq, hc0⟩ := hmsChars_head_cases d.standardHMS
  rcases dN : d.dstName with _ | ⟨c, cs⟩
  · rcases hrest with ⟨-, hH, hS1, hS2⟩ | ⟨hne, -⟩
    swap
    · exact absurd dN hne
    have hren : tzChars d = d.standardName ++ (hmsChars d.standardHMS ++ []) := by
      unfold tzChars
      rw [dN]
      simp
    have h1 : takeName (d.standardName ++ (hmsChars d.standardHMS ++ [])) =
        (d.standardName, hmsChars d.standardHMS ++ []) :=
      takeName_append hstd' (fun x hx => by
        rw [List.append_nil, hc0eq] at hx
        simp at hx
        subst hx
        exact isNameChar_false_of_head hc0)
    have h2 : takeOffset (hmsChars d.standardHMS ++ []) = (hmsChars d.standardHMS, []) :=
      takeOffset_hmsChars _ _ (fun x hx => by simp at hx)
    rw [hren]
    unfold parseTzL
    rw [h1]
    simp only [h2]
    rw [show takeName [] = ([], []) from rfl]
    simp only [parseHMSL_hmsChars hstdHMS]
    cases d with
    | mk dstName dstHMS standardName standardHMS dstStart standardStart =>
      simp only at dN hH hS1 hS2 ⊢
      rw [dN, hH, hS1, hS2]
  · rcases hrest with ⟨hnil, -⟩ | ⟨-, hdname, hdhead, hdHMS, hrules⟩
    · rw [dN] at hnil
      simp at hnil
    have hdname' : ∀ ch ∈ (c :: cs), isNameChar ch = true := by
      rw [dN] at hdname
      simpa using hdname
    have hdhead' : isOffsetChar c = false := by
      rw [dN] at hdhead
      simpa using hdhead
    obtain ⟨c1, cs1, hc1eq, hc1⟩ := hmsChars_head_cases d.dstHMS
    by_cases hv : d.dstStart.valid
    · rcases hrules with ⟨hcw1, hcw2⟩ | ⟨hS1, -⟩
      swap
      · rw [hS1] at hv
        simp [LocalTimeChange.valid] at hv
      have hren : tzChars d = d.standardName ++ (hmsChars d.standardHMS ++
          (c :: (cs ++ (hmsChars d.dstHMS ++
            (',' :: (changeChars d.dstStart ++ ',' :: changeChars d.standardStart)))))) := by
        unfold tzChars
        rw [dN, if_pos hv]
        simp [List.append_assoc]
      have h1 : takeName (d.standardName ++ (hmsChars d.standardHMS ++
          (c :: (cs ++ (hmsChars d.dstHMS ++
            (',' :: (changeChars d.dstStart ++ ',' :: changeChars d.standardStart))))))) =
          (d.standardName, hmsChars d.standardHMS ++
          (c :: (cs ++ (hmsChars d.dstHMS ++
            (',' :: (changeChars d.dstStart ++ ',' :: changeChars d.standardStart)))))) :=
        takeName_append hstd' (fun x hx => by
          rw [hc0eq] at hx
          simp at hx
          subst hx
          exact isNameChar_false_of_head hc0)
      have h2 : takeOffset (hmsChars d.standardHMS ++
          (c :: (cs ++ (hmsChars d.dstHMS ++
            (',' :: (changeChars d.dstStart ++ ',' :: changeChars d.standardStart)))))) =
          (hmsChars d.standardHMS,
            c :: (cs ++ (hmsChars d.dstHMS ++
            (',' :: (changeChars d.dstStart ++ ',' :: changeChars d.standardStart))))) :=
        takeOffset_hmsChars _ _ (fun x hx => by
          simp at hx
          subst hx
          exact hdhead')
      have h3 : takeName ((c :: cs) ++ (hmsChars d.dstHMS ++
          (',' :: (changeChars d.dstStart ++ ',' :: changeChars d.standardStart)))) =
          (c :: cs, hmsChars d.dstHMS ++
            (',' :: (changeChars d.dstStart ++ ',' :: changeChars d.standardStart))) :=
        takeName_append hdname' (fun x hx => by
          rw [hc1eq] at hx
          simp at hx
          subst hx
          exact isNameChar_false_of_head hc1)
      simp only [List.cons_append] at h3
      have h4 : takeOffset (hmsChars d.dstHMS ++
          (',' :: (changeChars d.dstStart ++ ',' :: changeChars d.standardStart))) =
          (hmsChars d.dstHMS,
            ',' :: (changeChars d.dstStart ++ ',' :: changeChars d.standardStart)) :=
        takeOffset_hmsChars _ _ (fun x hx => by
          simp at hx
          subst hx
          decide)
      have h6 : spanD (fun ch => ch != ',') (changeChars d.dstStart ++ ',' :: changeChars d.standardStart) =
          (changeChars d.dstStart, ',' :: changeChars d.standardStart) :=
        spanD_append (fun x hx => changeChars_ne_comma hx) (fun x hx => by
          simp at hx
          subst hx
          decide)
      rw [hren]
      unfold parseTzL
      rw [h1]
      simp only [h2, h3, h4, h6]
      rw [hc1eq]
      simp only [parseChangeL_changeChars hcw1, parseChangeL_changeChars hcw2, ← hc1eq,
        parseHMSL_hmsChars hdHMS, parseHMSL_hmsChars hstdHMS]
      cases d with
      | mk dstName dstHMS standardName standardHMS dstStart standardStart =>
        simp only at dN ⊢
        rw [dN]
    · rcases hrules with ⟨hcw1, -⟩ | ⟨hS1, hS2⟩
      · exact absurd hcw1.1 hv
      have hren : tzChars d = d.standardName ++ (hmsChars d.standardHMS ++
          (c :: (cs ++ (hmsChars d.dstHMS ++ ([] : List Char))))) := by
        unfold tzChars
        rw [dN, if_neg hv]
        simp [List.append_assoc]
      have h1 : takeName (d.standardName ++ (hmsChars d.standardHMS ++
          (c :: (cs ++ (hmsChars d.dstHMS ++ ([] : List Char)))))) =
          (d.standardName, hmsChars d.standardHMS ++
            (c :: (cs ++ (hmsChars d.dstHMS ++ ([] : List Char))))) :=
        takeName_append hstd' (fun x hx => by
          rw [hc0eq] at hx
          simp at hx
          subst hx
          exact isNameChar_false_of_head hc0)
      have h2 : takeOffset (hmsChars d.standardHMS ++
          (c :: (cs ++ (hmsChars d.dstHMS ++ ([] : List Char))))) =
          (hmsChars d.standardHMS, c :: (cs ++ (hmsChars d.dstHMS ++ ([] : List Char)))) :=
        takeOffset_hmsChars _ _ (fun x hx => by
          simp at hx
          subst hx
          exact hdhead')
      have h3 : takeName ((c :: cs) ++ (hmsChars d.dstHMS ++ ([] : List Char))) =
          (c :: cs, hmsChars d.dstHMS ++ ([] : List Char)) :=
        takeName_append hdname' (fun x hx => by
          rw [hc1eq] at hx
          simp at hx
          subst hx
          exact isNameChar_false_of_head hc1)
      simp only [List.cons_append] at h3
      have h4 : takeOffset (hmsChars d.dstHMS ++ ([] : List Char)) =
          (hmsChars d.dstHMS, ([] : List Char)) :=
        takeOffset_hmsChars _ _ (fun x hx => by simp at hx)
      rw [hren]
      unfold parseTzL
      rw [h1]
      simp only [h2, h3, h4]
      rw [hc1eq]
      simp only [← hc1eq, parseHMSL_hmsChars hdHMS, parseHMSL_hmsChars hstdHMS]
      cases d with
      | mk dstName dstHMS standardName standardHMS dstStart standardStart =>
        simp only at dN hS1 hS2 ⊢
        rw [dN, hS1, hS2]

/-! ## Lemmas: transition-day calendar arithmetic -/

theorem daysFromCivil_add (y m d k : Int) :
    daysFromCivil y m (d + k) = daysFromCivil y m d + k := by
  unfold daysFromCivil
  by_cases hm : m ≤ 2 <;> simp only [hm, if_true, if_false] <;> ring

theorem weekdayOf_shift (y m d e : Int) :
    weekdayOf y m e = (weekdayOf y m d + (e - d)) % 7 := by
  have h0 : d + (e - d) = e := by ring
  have h1 : daysFromCivil y m e = daysFromCivil y m d + (e - d) := by
    rw [← daysFromCivil_add, h0]
  unfold weekdayOf
  rw [h1]
  generalize daysFromCivil y m d = X
  omega

theorem weekdayOf_nonneg_lt (y m d : Int) :
    0 ≤ weekdayOf y m d ∧ weekdayOf y m d < 7 := by
  unfold weekdayOf
  generalize daysFromCivil y m d = X
  omega

theorem lastDayOfMonth_bounds (y : Int) {m : Int} (h1 : 1 ≤ m) (h2 : m ≤ 12) :
    28 ≤ lastDayOfMonth y m ∧ lastDayOfMonth y m ≤ 31 := by
  unfold lastDayOfMonth daysFromCivil
  interval_cases m <;> norm_num <;> omega


theorem lastWeekdayOnOrBefore_spec (y m target : Int) (n : Nat) :
    (∀ d : Int, lastWeekdayOnOrBefore y m target n < d → d ≤ (n : Int) →
      weekdayOf y m d ≠ target) ∧
    (lastWeekdayOnOrBefore y m target n = 0 ∨
      (1 ≤ lastWeekdayOnOrBefore y m target n ∧
        lastWeekdayOnOrBefore y m target n ≤ (n : Int) ∧
        weekdayOf y m (lastWeekdayOnOrBefore y m target n) = target)) := by
  induction n with
  | zero =>
    refine ⟨fun d h1 h2 => ?_, Or.inl rfl⟩
    exfalso
    simp [lastWeekdayOnOrBefore] at h1
    omega
  | succ k ih =>
    obtain ⟨ih1, ih2⟩ := ih
    unfold lastWeekdayOnOrBefore
    by_cases hw : weekdayOf y m ((k : Int) + 1) = target
    · rw [if_pos hw]
      refine ⟨fun d h1 h2 => ?_, Or.inr ⟨by omega, by push_cast; omega, hw⟩⟩
      exfalso
      push_cast at h2
      omega
    · rw [if_neg hw]
      refine ⟨fun d h1 h2 => ?_, ?_⟩
      · by_cases hd : d = (k : Int) + 1
        · rw [hd]; exact hw
        · exact ih1 d h1 (by push_cast at h2; omega)
      · rcases ih2 with h | ⟨ha, hb, hc⟩
        · exact Or.inl h
        · exact Or.inr ⟨ha, by push_cast; omega, hc⟩

theorem exists_weekday_in_window (y m target L : Int)
    (ht1 : 0 ≤ target) (ht2 : target ≤ 6) :
    ∃ d : Int, L - 6 ≤ d ∧ d ≤ L ∧ weekdayOf y m d = target := by
  obtain ⟨hw0, hw7⟩ := weekdayOf_nonneg_lt y m L
  refine ⟨L - (weekdayOf y m L - target) % 7, by omega, by omega, ?_⟩
  rw [weekdayOf_shift y m L]
  generalize hX : weekdayOf y m L = X at hw0 hw7
  omega


/-- Assembled "last occurrence" property of the week-5 branch. -/
theorem calcDayOfMonth_week5 (c : LocalTimeChange) (year : Int)
    (hw : c.week = 5) (hm1 : 1 ≤ c.month) (hm2 : c.month ≤ 12)
    (hd1 : 0 ≤ c.dayOfWeek) (hd2 : c.dayOfWeek ≤ 6) :
    weekdayOf year c.month (calcDayOfMonth c year) = c.dayOfWeek ∧
    1 ≤ calcDayOfMonth c year ∧
    calcDayOfMonth c year ≤ lastDayOfMonth year c.month ∧
    ∀ d : Int, calcDayOfMonth c year < d → d ≤ lastDayOfMonth year c.month →
      weekdayOf year c.month d ≠ c.dayOfWeek := by
  have hL := lastDayOfMonth_bounds year hm1 hm2
  have hcalc : calcDayOfMonth c year =
      lastWeekdayOnOrBefore year c.month c.dayOfWeek (lastDayOfMonth year c.month).toNat := by
    unfold calcDayOfMonth
    rw [if_neg (by omega)]
  obtain ⟨hspec1, hspec2⟩ :=
    lastWeekdayOnOrBefore_spec year c.month c.dayOfWeek (lastDayOfMonth year c.month).toNat
  have hLcast : ((lastDayOfMonth year c.month).toNat : Int) = lastDayOfMonth year c.month :=
    Int.toNat_of_nonneg (by omega)
  rw [hLcast] at hspec1 hspec2
  obtain ⟨d0, hd01, hd02, hd03⟩ :=
    exists_weekday_in_window year c.month c.dayOfWeek (lastDayOfMonth year c.month) hd1 hd2
  have hres : d0 ≤ lastWeekdayOnOrBefore year c.month c.dayOfWeek
      (lastDayOfMonth year c.month).toNat := by
    by_contra hlt
    push_neg at hlt
    exact hspec1 d0 hlt (by omega) hd03
  rcases hspec2 with h0 | ⟨ha, hb, hc2⟩
  · exfalso
    omega
  · rw [hcalc]
    exact ⟨hc2, by omega, by omega, fun d hx1 hx2 => hspec1 d hx1 (by omega)⟩

/-! ## The claims -/

theorem parseTzL_dstStart_of_nil (l : List Char)
    (h : (parseTzL l).dstName = []) : (parseTzL l).dstStart.valid = false := by
  unfold parseTzL at h ⊢
  rcases hm : (takeName (takeOffset (takeName l).2).2).1 with _ | ⟨c, cs⟩
  · simp [hm]
  · simp only [hm] at h
    repeat' split at h
    all_goals simp at h

def estTz : LocalTimePosixTimezone :=
  LocalTimePosixTimezone.parse "EST5EDT,M3.2.0/2:00:00,M11.1.0/2:00:00"

/-- Claim C1: for the descriptor parsed from
`"EST5EDT,M3.2.0/2:00:00,M11.1.0/2:00:00"`, the computed 2021 transition
instants are 1615705200 (2021-03-14 07:00:00 UTC) and 1636264800
(2021-11-07 06:00:00 UTC); `convert` classifies one second before the DST
start as `BEFORE_DST`, one second after as `IN_DST`, one second before the
standard start as `IN_DST`, one second after as `AFTER_DST`, and an instant
exactly equal to a transition instant belongs to the state that begins
there (comparison is `>=` at each transition start). -/
theorem C1_season_classification :
    (LocalTimeConvert.convert estTz 1612137600).dstStart = 1615705200 ∧
    (LocalTimeConvert.convert estTz 1612137600).standardStart = 1636264800 ∧
    (LocalTimeConvert.convert estTz (1615705200 - 1)).position = .BEFORE_DST ∧
    (LocalTimeConvert.convert estTz (1615705200 + 1)).position = .IN_DST ∧
    (LocalTimeConvert.convert estTz (1636264800 - 1)).position = .IN_DST ∧
    (LocalTimeConvert.convert estTz (1636264800 + 1)).position = .AFTER_DST ∧
    (LocalTimeConvert.convert estTz 1615705200).position = .IN_DST ∧
    (LocalTimeConvert.convert estTz 1636264800).position = .AFTER_DST := by
  decide

/-- Claim C2: for every valid transition rule with week ordinal at most 4
and every year, the selected day-of-month is
`1 + ((dayOfWeek - weekdayOfFirstOfMonth + 7) mod 7) + (week - 1)*7`; in
particular the rule parsed from `"M3.2.0"` in 2021 yields March 14, 2021. -/
theorem C2_nth_weekday :
    (∀ (c : LocalTimeChange) (year : Int), c.valid = true → c.week ≤ 4 →
      calcDayOfMonth c year =
        1 + (c.dayOfWeek - weekdayOf year c.month 1 + 7) % 7 + (c.week - 1) * 7) ∧
    (LocalTimeChange.parse "M3.2.0").month = 3 ∧
    calcDayOfMonth (LocalTimeChange.parse "M3.2.0") 2021 = 14 := by
  refine ⟨fun c year hv hw => ?_, by decide, by decide⟩
  unfold calcDayOfMonth
  rw [if_pos hw]

theorem C2_nth_weekday_witness :
    calcDayOfMonth (LocalTimeChange.parse "M3.2.0") 2021 =
      1 + ((LocalTimeChange.parse "M3.2.0").dayOfWeek
        - weekdayOf 2021 (LocalTimeChange.parse "M3.2.0").month 1 + 7) % 7
        + ((LocalTimeChange.parse "M3.2.0").week - 1) * 7 :=
  C2_nth_weekday.1 (LocalTimeChange.parse "M3.2.0") 2021 (by decide) (by decide)

/-- Claim C3: for every valid transition rule with week ordinal 5 and every
year, the selected day is the last occurrence of the rule's weekday in the
rule's month: its weekday matches, it lies in the month, and no later day
of the month has that weekday; in particular the rule parsed from
`"M11.5.0"` in 2021 yields November 28, 2021. -/
theorem C3_last_weekday :
    (∀ (c : LocalTimeChange) (year : Int), c.valid = true → c.week = 5 →
      1 ≤ c.month → c.month ≤ 12 → 0 ≤ c.dayOfWeek → c.dayOfWeek ≤ 6 →
      (weekdayOf year c.month (calcDayOfMonth c year) = c.dayOfWeek ∧
        1 ≤ calcDayOfMonth c year ∧
        calcDayOfMonth c year ≤ lastDayOfMonth year c.month ∧
        ∀ d : Int, calcDayOfMonth c year < d → d ≤ lastDayOfMonth year c.month →
          weekdayOf year c.month d ≠ c.dayOfWeek)) ∧
    (LocalTimeChange.parse "M11.5.0").month = 11 ∧
    calcDayOfMonth (LocalTimeChange.parse "M11.5.0") 2021 = 28 :=
  ⟨fun c year _ h5 hm1 hm2 hd1 hd2 => calcDayOfMonth_week5 c year h5 hm1 hm2 hd1 hd2,
    by decide, by decide⟩

theorem C3_last_weekday_witness :
    weekdayOf 2021 (LocalTimeChange.parse "M11.5.0").month
      (calcDayOfMonth (LocalTimeChange.parse "M11.5.0") 2021) =
      (LocalTimeChange.parse "M11.5.0").dayOfWeek :=
  (C3_last_weekday.1 (LocalTimeChange.parse "M11.5.0") 2021 (by decide) (by decide)
    (by decide) (by decide) (by decide) (by decide)).1

/-- Claim C4: for every descriptor with DST and every target instant,
`convert` computes the `dstStart` instant from the DST-start rule using the
standard-time offset, and the `standardStart` instant from the
standard-start rule using the DST offset. -/
theorem C4_transition_offsets (cfg : LocalTimePosixTimezone) (t : Int)
    (hdst : cfg.hasDST = true) :
    (LocalTimeConvert.convert cfg t).dstStart =
      (cfg.dstStart.calculate (timeToTm t) cfg.standardHMS).1 ∧
    (LocalTimeConvert.convert cfg t).standardStart =
      (cfg.standardStart.calculate (timeToTm t) cfg.dstHMS).1 := by
  unfold LocalTimeConvert.convert
  rw [if_pos hdst]
  exact ⟨rfl, rfl⟩

theorem C4_transition_offsets_witness :
    (LocalTimeConvert.convert estTz 1612137600).dstStart =
      (estTz.dstStart.calculate (timeToTm 1612137600) estTz.standardHMS).1 ∧
    (LocalTimeConvert.convert estTz 1612137600).standardStart =
      (estTz.standardStart.calculate (timeToTm 1612137600) estTz.dstHMS).1 :=
  C4_transition_offsets estTz 1612137600 (by decide)

/-- Claim C5: for every syntactically valid descriptor string `S`, parsing
`parse(S).toString()` yields the very same descriptor as `parse(S)` (same
names, offsets and rule fields; the rendered string need not equal `S`). -/
theorem C5_roundtrip (S : String) (hS : ValidTzString S) :
    LocalTimePosixTimezone.parse (LocalTimePosixTimezone.toString
      (LocalTimePosixTimezone.parse S)) = LocalTimePosixTimezone.parse S :=
  parseTzL_tzChars hS

theorem C5_roundtrip_witness :
    LocalTimePosixTimezone.parse (LocalTimePosixTimezone.toString
      (LocalTimePosixTimezone.parse "EST5EDT,M3.2.0/2:00:00,M11.1.0/2:00:00")) =
      LocalTimePosixTimezone.parse "EST5EDT,M3.2.0/2:00:00,M11.1.0/2:00:00" :=
  C5_roundtrip "EST5EDT,M3.2.0/2:00:00,M11.1.0/2:00:00" (by decide)

/-- Claim C6 counterexample: the claim says `toSeconds` of the value parsed
from `"-2:30:00"` is `-(2*3600 + 30*60) = -9000`; the model (spec section 4.1 and
the header comment) gives `-2*3600 + 30*60 = -5400`, so the claim as stated
is false. -/
theorem C6_hms_counterexample :
    ¬ ((LocalTimeHMS.parse "-2:30:00").toSeconds = -(2 * 3600 + 30 * 60)) := by
  decide

/-- Claim C6 (amended): `toSeconds` of the value parsed from `"-2:30:00"`
is `-2*3600 + 30*60 = -5400`: the sign is stored and applied on the hour
component only; the minute and second magnitudes are added. -/
theorem C6_hms_amended :
    (LocalTimeHMS.parse "-2:30:00").toSeconds = -2 * 3600 + 30 * 60 := by
  decide

/-- Claim C7: for every HMS value, `toSeconds` equals
`hour*3600 + minute*60 + second`, with the minute and second magnitudes
added (not subtracted) even when the hour is negative, as witnessed on the
parse of `"-2:30:00"` (hour -2, minute 30). -/
theorem C7_toSeconds_formula :
    (∀ h : LocalTimeHMS, h.toSeconds = h.hour * 3600 + h.minute * 60 + h.second) ∧
    (LocalTimeHMS.parse "-2:30:00").hour = -2 ∧
    (LocalTimeHMS.parse "-2:30:00").minute = 30 ∧
    (LocalTimeHMS.parse "-2:30:00").toSeconds = -2 * 3600 + 30 * 60 + 0 :=
  ⟨fun _ => rfl, by decide, by decide, by decide⟩

/-- Claim C8: `hasDST()` returns true iff the DST-start rule's valid flag
is true; and parsing a string with no comma-separated rule pair and no DST
name leaves the DST-start rule invalid, so `hasDST()` is false. -/
theorem C8_hasDST_iff :
    (∀ tz : LocalTimePosixTimezone, tz.hasDST = true ↔ tz.dstStart.valid = true) ∧
    (∀ S : String, ',' ∉ S.toList → (LocalTimePosixTimezone.parse S).dstName = [] →
      ((LocalTimePosixTimezone.parse S).dstStart.valid = false ∧
        (LocalTimePosixTimezone.parse S).hasDST = false)) := by
  refine ⟨fun tz => Iff.rfl, fun S hcomma hname => ?_⟩
  have h := parseTzL_dstStart_of_nil S.toList hname
  exact ⟨h, h⟩

theorem C8_hasDST_iff_witness :
    (LocalTimePosixTimezone.parse "UTC0").dstStart.valid = false ∧
    (LocalTimePosixTimezone.parse "UTC0").hasDST = false :=
  C8_hasDST_iff.2 "UTC0" (by decide) (by decide)

/-- Claim C9: for the descriptor parsed from `"UTC0"` and every target
instant, `convert` sets the position to `NO_DST` and the local broken-down
fields equal the UTC broken-down fields of the instant. -/
theorem C9_utc0 (t : Int) :
    (LocalTimeConvert.convert (LocalTimePosixTimezone.parse "UTC0") t).position =
      .NO_DST ∧
    (LocalTimeConvert.convert
      (LocalTimePosixTimezone.parse "UTC0") t).localTimeValue.localTimeInfo =
      timeToTm t := by
  have hc : LocalTimePosixTimezone.parse "UTC0" =
      { standardName := ['U', 'T', 'C'] } := by decide
  rw [hc]
  unfold LocalTimeConvert.convert
  rw [if_neg (by decide)]
  refine ⟨rfl, ?_⟩
  show timeToTm (t - LocalTimeHMS.toSeconds {}) = timeToTm t
  norm_num [LocalTimeHMS.toSeconds]

/-- Claim C10: `isDST()` is true iff the position equals `IN_DST`,
`isStandardTime()` is the negation of `isDST()`, and in particular a
`NO_DST` position yields `isStandardTime() = true`. -/
theorem C10_isDST (c : LocalTimeConvert) :
    (c.isDST = true ↔ c.position = .IN_DST) ∧
    c.isStandardTime = !c.isDST ∧
    (c.position = .NO_DST → c.isStandardTime = true) := by
  unfold LocalTimeConvert.isStandardTime LocalTimeConvert.isDST
  rcases hc : c.position <;> simp [hc]

theorem C10_isDST_witness :
    (LocalTimeConvert.convert (LocalTimePosixTimezone.parse "UTC0") 0).isStandardTime =
      true :=
  (C10_isDST _).2.2 (by decide)

end LTRK
